import Mathlib

/-!
Shallow embedding of `lib/sbi/sbi_fifo.c` (OpenSBI): a fixed-capacity,
fixed-entry-size circular byte queue.  Memory is modelled as a list of
bytes (`Fin 256`); the `u16` struct fields are modelled as `Nat` with an
explicit `% 65536` at the two points where the C code increments a `u16`.
The spin lock serialises every operation, so each operation is modelled
as a pure state transformer.  A null pointer is modelled as `none`.
-/

namespace SbiFifo

abbrev Byte := Fin 256

/-- Read `n` bytes from `buf` starting at `off` (models a plain byte load;
out-of-range positions, which the theorems exclude, read as zero). -/
def readBytes (buf : List Byte) (off n : Nat) : List Byte :=
  (List.range n).map (fun i => buf.getD (off + i) 0)

/-- Write the bytes `src` into `buf` starting at `off` (models `sbi_memcpy`
into the queue region; out-of-range writes are dropped). -/
def writeBytes (buf : List Byte) (off : Nat) (src : List Byte) : List Byte :=
  match src with
  | [] => buf
  | b :: bs => writeBytes (buf.set off b) (off + 1) bs

/-- Little-endian value of a byte list (models a native-width load such as
`*(u32 *)p`). -/
def bytesToWord : List Byte → Nat
  | [] => 0
  | b :: bs => b.val + 256 * bytesToWord bs

/-- Little-endian bytes of a value, `n` bytes wide (models a native-width
store such as `*(u32 *)p = v`). -/
def wordToBytes (w : Nat) : Nat → List Byte
  | 0 => []
  | n + 1 => (⟨w % 256, Nat.mod_lt _ (by omega)⟩ : Byte) :: wordToBytes (w / 256) n

/-- Models `sbi_memset(buf, 0, n)`. -/
def memsetZero (buf : List Byte) (n : Nat) : List Byte :=
  writeBytes buf 0 (List.replicate n 0)

/-- Modelled from the spec: the error codes used by `sbi_fifo.c` come from
the header `sbi_error.h`, which is not part of the sources; the spec only
requires a distinct nonzero invalid-argument code. -/
def SBI_EINVAL : Int := -3

/-- Modelled from the spec: distinct nonzero capacity-exhausted code from
the absent header `sbi_error.h`. -/
def SBI_ENOSPC : Int := -1005

/-- Modelled from the spec: distinct nonzero empty-queue code from the
absent header `sbi_error.h`. -/
def SBI_ENOENT : Int := -1009

/-- Modelled from the spec: the in-place-update status *skip* from the
absent header `sbi_fifo.h`; only distinctness of the three statuses
matters. -/
def SBI_FIFO_SKIP : Int := 0

/-- Modelled from the spec: the in-place-update status *updated* from the
absent header `sbi_fifo.h`. -/
def SBI_FIFO_UPDATED : Int := 1

/-- Modelled from the spec: the in-place-update status *unchanged* from the
absent header `sbi_fifo.h`. -/
def SBI_FIFO_UNCHANGED : Int := 2

/-- The `struct sbi_fifo` fields (the spin lock carries no mathematical
state).  `queue` is the backing byte region; `num_entries`, `entry_size`,
`avail` and `tail` are `u16` in C and are modelled as `Nat`. -/
structure Fifo where
  queue : List Byte
  num_entries : Nat
  entry_size : Nat
  avail : Nat
  tail : Nat
deriving DecidableEq, Repr

/-- `sbi_fifo_init`: bind the queue to caller memory, zero the whole
region, and clear `avail` and `tail`. -/
def sbi_fifo_init (queue_mem : List Byte) (entries entry_size : Nat) : Fifo :=
  { queue := memsetZero queue_mem (entries * entry_size)
    num_entries := entries
    entry_size := entry_size
    avail := 0
    tail := 0 }

/-- `__sbi_fifo_is_full`. -/
def is_full_unlocked (f : Fifo) : Bool :=
  f.avail == f.num_entries

/-- `__sbi_fifo_is_empty`. -/
def is_empty_unlocked (f : Fifo) : Bool :=
  f.avail == 0

/-- `sbi_fifo_avail`: `0` for a null handle, otherwise the current count. -/
def sbi_fifo_avail : Option Fifo → Nat
  | none => 0
  | some f => f.avail

/-- `sbi_fifo_is_full`: `SBI_EINVAL` for a null handle, otherwise the
C `bool` result converted to `int`. -/
def sbi_fifo_is_full : Option Fifo → Int
  | none => SBI_EINVAL
  | some f => if is_full_unlocked f then 1 else 0

/-- `sbi_fifo_is_empty`: `SBI_EINVAL` for a null handle, otherwise the
C `bool` result converted to `int`. -/
def sbi_fifo_is_empty : Option Fifo → Int
  | none => SBI_EINVAL
  | some f => if is_empty_unlocked f then 1 else 0

/-- The head computation of `__sbi_fifo_enqueue`:
`head = tail + avail; if (head >= num_entries) head -= num_entries;`. -/
def headIndex (f : Fifo) : Nat :=
  let head := f.tail + f.avail
  if f.num_entries ≤ head then head - f.num_entries else head

/-- The width-specialised copy of `__sbi_fifo_enqueue`: entry sizes 1, 2, 4
(and 8 when `__riscv_xlen > 32`, the `wide` flag) do a native-width
load/store, every other size a byte-wise `sbi_memcpy`. -/
def copyEntryIn (wide : Bool) (es : Nat) (buf : List Byte) (off : Nat)
    (data : List Byte) : List Byte :=
  match es with
  | 1 => writeBytes buf off (wordToBytes (bytesToWord (readBytes data 0 1)) 1)
  | 2 => writeBytes buf off (wordToBytes (bytesToWord (readBytes data 0 2)) 2)
  | 4 => writeBytes buf off (wordToBytes (bytesToWord (readBytes data 0 4)) 4)
  | 8 =>
    if wide then writeBytes buf off (wordToBytes (bytesToWord (readBytes data 0 8)) 8)
    else writeBytes buf off (readBytes data 0 8)
  | _ => writeBytes buf off (readBytes data 0 es)

/-- The width-specialised copy-out of `sbi_fifo_dequeue`: the bytes the
output buffer of the caller receives from the slot at byte offset `off`. -/
def copyEntryOut (wide : Bool) (es : Nat) (buf : List Byte) (off : Nat) :
    List Byte :=
  match es with
  | 1 => wordToBytes (bytesToWord (readBytes buf off 1)) 1
  | 2 => wordToBytes (bytesToWord (readBytes buf off 2)) 2
  | 4 => wordToBytes (bytesToWord (readBytes buf off 4)) 4
  | 8 =>
    if wide then wordToBytes (bytesToWord (readBytes buf off 8)) 8
    else readBytes buf off 8
  | _ => readBytes buf off es

/-- `__sbi_fifo_enqueue`: store the entry at the head slot and increment
`avail` (a `u16` increment, hence the `% 65536`). -/
def enqueue_unlocked (wide : Bool) (f : Fifo) (data : List Byte) : Fifo :=
  { f with
    queue := copyEntryIn wide f.entry_size f.queue (headIndex f * f.entry_size) data
    avail := (f.avail + 1) % 65536 }

/-- `sbi_fifo_enqueue`: null checks, full check, then the locked enqueue.
Returns the result code and the queue state after the call. -/
def sbi_fifo_enqueue (wide : Bool) (fifo : Option Fifo)
    (data : Option (List Byte)) : Int × Option Fifo :=
  match fifo, data with
  | none, _ => (SBI_EINVAL, none)
  | some f, none => (SBI_EINVAL, some f)
  | some f, some d =>
    if is_full_unlocked f then (SBI_ENOSPC, some f)
    else (0, some (enqueue_unlocked wide f d))

/-- `sbi_fifo_dequeue`: null checks, empty check, copy the tail entry out,
decrement `avail`, advance `tail` (`u16` increment, then the reset-to-zero
wrap of the C code).  `hasOut` models whether the output pointer is
non-null; the third component is the data written through it. -/
def sbi_fifo_dequeue (wide : Bool) (fifo : Option Fifo) (hasOut : Bool) :
    Int × Option Fifo × Option (List Byte) :=
  match fifo with
  | none => (SBI_EINVAL, none, none)
  | some f =>
    if !hasOut then (SBI_EINVAL, some f, none)
    else if is_empty_unlocked f then (SBI_ENOENT, some f, none)
    else
      let out := copyEntryOut wide f.entry_size f.queue (f.tail * f.entry_size)
      let t := (f.tail + 1) % 65536
      (0, some { f with
                  avail := f.avail - 1
                  tail := if f.num_entries ≤ t then 0 else t }, some out)

/-- `__sbi_fifo_reset`: clear `avail` and `tail` and zero the region. -/
def reset_unlocked (f : Fifo) : Fifo :=
  { f with
    avail := 0
    tail := 0
    queue := memsetZero f.queue (f.num_entries * f.entry_size) }

/-- `sbi_fifo_reset`: `false` for a null handle, otherwise reset under the
lock and return `true`. -/
def sbi_fifo_reset (fifo : Option Fifo) : Bool × Option Fifo :=
  match fifo with
  | none => (false, none)
  | some f => (true, some (reset_unlocked f))

/-- The index computation of the `sbi_fifo_inplace_update` loop body:
`index = tail + i; if (index >= num_entries) index -= num_entries;`. -/
def wrapIndex (num x : Nat) : Nat :=
  if num ≤ x then x - num else x

/-- The `for` loop of `sbi_fifo_inplace_update`, structurally recursive on
the remaining iteration count (`fuel` starts at `avail`).  The callback
receives the context and the bytes of the slot and returns the status, the
new context, and the bytes of the slot after its in-place mutation
(truncated to the entry size, the region it owns). -/
def inplaceLoop {α : Type} (g : α → List Byte → Int × α × List Byte)
    (tail num es : Nat) :
    Nat → Nat → List Byte → α → Int → Int × List Byte × α
  | _, 0, buf, c, ret => (ret, buf, c)
  | i, fu + 1, buf, c, _ =>
    let index := wrapIndex num (tail + i)
    let r := g c (readBytes buf (index * es) es)
    let buf2 := writeBytes buf (index * es) (r.2.2.take es)
    if r.1 = SBI_FIFO_SKIP ∨ r.1 = SBI_FIFO_UPDATED then (r.1, buf2, r.2.1)
    else inplaceLoop g tail num es (i + 1) fu buf2 r.2.1 r.1

/-- `sbi_fifo_inplace_update`: null handle or null context returns
`SBI_FIFO_UNCHANGED` untouched; an empty queue likewise; otherwise run the
scan loop under the lock.  Returns the status, the queue state and the
context state after the call. -/
def sbi_fifo_inplace_update {α : Type} (fifo : Option Fifo) (inp : Option α)
    (g : α → List Byte → Int × α × List Byte) : Int × Option Fifo × Option α :=
  match fifo, inp with
  | none, _ => (SBI_FIFO_UNCHANGED, none, inp)
  | some f, none => (SBI_FIFO_UNCHANGED, some f, none)
  | some f, some c =>
    if is_empty_unlocked f then (SBI_FIFO_UNCHANGED, some f, some c)
    else
      let r := inplaceLoop g f.tail f.num_entries f.entry_size 0 f.avail
        f.queue c SBI_FIFO_UNCHANGED
      (r.1, some { f with queue := r.2.1 }, some r.2.2)

/-- Well-formedness of a fifo state: the `u16` field bounds, the count and
tail bounds of the spec (with the tail bound weakened to `tail = 0` when
the capacity is zero), and the backing region having exactly
`num_entries * entry_size` bytes. -/
def fifo_wf (f : Fifo) : Prop :=
  f.num_entries ≤ 65535 ∧ f.entry_size ≤ 65535 ∧
  f.avail ≤ f.num_entries ∧
  (0 < f.num_entries → f.tail < f.num_entries) ∧
  (f.num_entries = 0 → f.tail = 0) ∧
  f.queue.length = f.num_entries * f.entry_size

instance (f : Fifo) : Decidable (fifo_wf f) := by
  unfold fifo_wf; infer_instance

/-- The reachable fifo states: those produced by `sbi_fifo_init` on a
region of the contracted size (with `u16` capacity and entry size) and
closed under the four mutating operations called through valid handles. -/
inductive Reachable (wide : Bool) : Fifo → Prop where
  | init (mem : List Byte) (entries entry_size : Nat)
      (hm : mem.length = entries * entry_size)
      (he : entries ≤ 65535) (hs : entry_size ≤ 65535) :
      Reachable wide (sbi_fifo_init mem entries entry_size)
  | enq (f f' : Fifo) (d : List Byte) (r : Int)
      (hf : Reachable wide f)
      (h : sbi_fifo_enqueue wide (some f) (some d) = (r, some f')) :
      Reachable wide f'
  | deq (f f' : Fifo) (r : Int) (out : Option (List Byte))
      (hf : Reachable wide f)
      (h : sbi_fifo_dequeue wide (some f) true = (r, some f', out)) :
      Reachable wide f'
  | rst (f f' : Fifo) (b : Bool)
      (hf : Reachable wide f)
      (h : sbi_fifo_reset (some f) = (b, some f')) :
      Reachable wide f'
  | upd {α : Type} (f f' : Fifo) (g : α → List Byte → Int × α × List Byte)
      (c : α) (r : Int) (c' : Option α)
      (hf : Reachable wide f)
      (h : sbi_fifo_inplace_update (some f) (some c) g = (r, some f', c')) :
      Reachable wide f'

/-- The bytes of the slot with index `i`. -/
def slotRead (f : Fifo) (i : Nat) : List Byte :=
  readBytes f.queue (i * f.entry_size) f.entry_size

/-- Abstraction function: the queue contents as the list of occupied
entries in dequeue order, the contiguous (mod capacity) run of `avail`
slots starting at `tail`. -/
def fifoEntries (f : Fifo) : List (List Byte) :=
  (List.range f.avail).map (fun i => slotRead f ((f.tail + i) % f.num_entries))

/-- The slot indices the in-place-update loop addresses, in visit order:
`avail` indices starting at `tail`, wrapped once past the capacity. -/
def slotOrder (f : Fifo) : List Nat :=
  (List.range f.avail).map (fun i => wrapIndex f.num_entries (f.tail + i))

/-- Reference scan over an explicit list of slot indices, following the
words of the spec: invoke the callback on each slot in order and stop as
soon as it returns *skip* or *updated*. -/
def scanSlots {α : Type} (g : α → List Byte → Int × α × List Byte) (es : Nat) :
    List Nat → List Byte → α → Int → Int × List Byte × α
  | [], buf, c, ret => (ret, buf, c)
  | idx :: rest, buf, c, _ =>
    let r := g c (readBytes buf (idx * es) es)
    let buf2 := writeBytes buf (idx * es) (r.2.2.take es)
    if r.1 = SBI_FIFO_SKIP ∨ r.1 = SBI_FIFO_UPDATED then (r.1, buf2, r.2.1)
    else scanSlots g es rest buf2 r.2.1 r.1

/-- Reference scan that never stops early: invoke the callback on every
listed slot and return the status of the last invocation. -/
def scanAllSlots {α : Type} (g : α → List Byte → Int × α × List Byte) (es : Nat) :
    List Nat → List Byte → α → Int → Int × List Byte × α
  | [], buf, c, ret => (ret, buf, c)
  | idx :: rest, buf, c, _ =>
    let r := g c (readBytes buf (idx * es) es)
    scanAllSlots g es rest (writeBytes buf (idx * es) (r.2.2.take es)) r.2.1 r.1

/-- One visit of the reference scan: invoke the callback on the slot with
index `idx` of the running `(status, buffer, context)` state and write its
slot mutation back. -/
def stepSlot {α : Type} (g : α → List Byte → Int × α × List Byte)
    (es idx : Nat) (s : Int × List Byte × α) : Int × List Byte × α :=
  let r := g s.2.2 (readBytes s.2.1 (idx * es) es)
  (r.1, writeBytes s.2.1 (idx * es) (r.2.2.take es), r.2.1)

/-- Enqueue a list of entries in order through `sbi_fifo_enqueue`,
keeping the previous state where a call fails. -/
def enqueueList (wide : Bool) (f : Fifo) (ds : List (List Byte)) : Fifo :=
  ds.foldl (fun g d => ((sbi_fifo_enqueue wide (some g) (some d)).2).getD g) f

/-- Dequeue `n` times through `sbi_fifo_dequeue`, collecting the outputs
of the successful calls. -/
def dequeueN (wide : Bool) : Fifo → Nat → List (List Byte) × Fifo
  | f, 0 => ([], f)
  | f, n + 1 =>
    let r := sbi_fifo_dequeue wide (some f) true
    let f' := r.2.1.getD f
    let rest := dequeueN wide f' n
    match r.2.2 with
    | some out => (out :: rest.1, rest.2)
    | none => rest

/-- A four-byte little-endian entry, for the concrete scenario of the
spec (capacity 4, entry width 4). -/
def w4 (n : Nat) : List Byte := wordToBytes n 4

/-- Concrete scenario, step 0: a fresh capacity-4, width-4 fifo. -/
def scn0 : Option Fifo := some (sbi_fifo_init (List.replicate 16 0) 4 4)

/-- Concrete scenario after Enqueue(1), Enqueue(2), Enqueue(3). -/
def scnE3 : Option Fifo :=
  (sbi_fifo_enqueue true
    ((sbi_fifo_enqueue true
      ((sbi_fifo_enqueue true scn0 (some (w4 1))).2)
      (some (w4 2))).2)
    (some (w4 3))).2

/-- Concrete scenario: the first Dequeue call. -/
def scnD1 : Int × Option Fifo × Option (List Byte) :=
  sbi_fifo_dequeue true scnE3 true

/-- Concrete scenario after Enqueue(4), Enqueue(5). -/
def scnE5 : Option Fifo :=
  (sbi_fifo_enqueue true
    ((sbi_fifo_enqueue true scnD1.2.1 (some (w4 4))).2)
    (some (w4 5))).2

/-- Concrete scenario: the rejected Enqueue(6). -/
def scnE6 : Int × Option Fifo :=
  sbi_fifo_enqueue true scnE5 (some (w4 6))

/-- Concrete scenario: first of the final dequeue calls. -/
def scnQ1 : Int × Option Fifo × Option (List Byte) :=
  sbi_fifo_dequeue true scnE6.2 true

/-- Concrete scenario: second of the final dequeue calls. -/
def scnQ2 : Int × Option Fifo × Option (List Byte) :=
  sbi_fifo_dequeue true scnQ1.2.1 true

/-- Concrete scenario: third of the final dequeue calls. -/
def scnQ3 : Int × Option Fifo × Option (List Byte) :=
  sbi_fifo_dequeue true scnQ2.2.1 true

/-- Concrete scenario: fourth of the final dequeue calls. -/
def scnQ4 : Int × Option Fifo × Option (List Byte) :=
  sbi_fifo_dequeue true scnQ3.2.1 true

/-- Concrete scenario: fifth of the final dequeue calls. -/
def scnQ5 : Int × Option Fifo × Option (List Byte) :=
  sbi_fifo_dequeue true scnQ4.2.1 true

/-- Pointwise description of `List.set` through `getD`. -/
theorem getD_set (l : List Byte) (i j : Nat) (a : Byte) :
    (l.set i a).getD j 0 = if i = j ∧ i < l.length then a else l.getD j 0 := by
  induction l generalizing i j with
  | nil => simp
  | cons b bs ih =>
    match i, j with
    | 0, 0 => simp
    | 0, j + 1 => simp
    | i + 1, 0 => simp
    | i + 1, j + 1 =>
      simp only [List.set, List.getD_cons_succ, List.length_cons, ih i j]
      by_cases h : i = j ∧ i < bs.length
      · rw [if_pos h, if_pos (by omega)]
      · rw [if_neg h, if_neg (by omega)]

theorem length_writeBytes (src : List Byte) (buf : List Byte) (off : Nat) :
    (writeBytes buf off src).length = buf.length := by
  induction src generalizing buf off with
  | nil => rfl
  | cons b bs ih => simp [writeBytes, ih, List.length_set]

/-- Pointwise description of `writeBytes` through `getD`. -/
theorem getD_writeBytes (src : List Byte) (buf : List Byte) (off i : Nat) :
    (writeBytes buf off src).getD i 0 =
      if off ≤ i ∧ i < off + src.length ∧ i < buf.length
      then src.getD (i - off) 0 else buf.getD i 0 := by
  induction src generalizing buf off with
  | nil =>
    simp only [writeBytes, List.length_nil, Nat.add_zero]
    rw [if_neg (by omega)]
  | cons b bs ih =>
    simp only [writeBytes, List.length_cons]
    rw [ih, List.length_set, getD_set]
    by_cases h1 : off + 1 ≤ i ∧ i < off + 1 + bs.length ∧ i < buf.length
    · rw [if_pos h1, if_pos (by omega : off ≤ i ∧ i < off + (bs.length + 1) ∧ i < buf.length)]
      rw [(by omega : i - off = (i - (off + 1)) + 1), List.getD_cons_succ]
    · rw [if_neg h1]
      by_cases h2 : off = i ∧ off < buf.length
      · rw [if_pos h2, if_pos (by omega : off ≤ i ∧ i < off + (bs.length + 1) ∧ i < buf.length)]
        rw [(by omega : i - off = 0), List.getD_cons_zero]
      · rw [if_neg h2, if_neg (by omega : ¬(off ≤ i ∧ i < off + (bs.length + 1) ∧ i < buf.length))]

theorem length_readBytes (buf : List Byte) (off n : Nat) :
    (readBytes buf off n).length = n := by
  simp [readBytes]

/-- Pointwise description of `readBytes` through `getD`. -/
theorem getD_readBytes (buf : List Byte) (off n i : Nat) :
    (readBytes buf off n).getD i 0 =
      if i < n then buf.getD (off + i) 0 else 0 := by
  by_cases h : i < n
  · rw [if_pos h, List.getD_eq_getElem _ _ (by simpa [length_readBytes] using h)]
    simp [readBytes]
  · rw [if_neg h, List.getD_eq_default _ _ (by simpa [length_readBytes] using Nat.le_of_not_lt h)]

/-- Two byte lists of equal length that agree pointwise on `getD` are
equal. -/
theorem byteList_ext (l1 l2 : List Byte) (hl : l1.length = l2.length)
    (h : ∀ i, i < l1.length → l1.getD i 0 = l2.getD i 0) : l1 = l2 := by
  apply List.ext_getElem hl
  intro i h1 h2
  have := h i h1
  rwa [List.getD_eq_getElem _ _ h1, List.getD_eq_getElem _ _ h2] at this

/-- Reading a region untouched by a write returns the old bytes. -/
theorem readBytes_writeBytes_disjoint (buf src : List Byte) (o1 o2 n : Nat)
    (h : o1 + n ≤ o2 ∨ o2 + src.length ≤ o1) :
    readBytes (writeBytes buf o2 src) o1 n = readBytes buf o1 n := by
  unfold readBytes
  apply List.map_congr_left
  intro i hi
  rw [List.mem_range] at hi
  rw [getD_writeBytes, if_neg (by omega)]

/-- Reading back exactly the written region returns the written bytes. -/
theorem readBytes_writeBytes_self (buf src : List Byte) (o : Nat)
    (h : o + src.length ≤ buf.length) :
    readBytes (writeBytes buf o src) o src.length = src := by
  apply byteList_ext _ _ (by simp [length_readBytes])
  intro i hi
  rw [length_readBytes] at hi
  rw [getD_readBytes, if_pos hi, getD_writeBytes, if_pos (by omega),
    (by omega : o + i - o = i)]

/-- Reading a whole list from offset zero is the identity. -/
theorem readBytes_all (l : List Byte) : readBytes l 0 l.length = l := by
  apply byteList_ext _ _ (by simp [length_readBytes])
  intro i hi
  rw [length_readBytes] at hi
  rw [getD_readBytes, if_pos hi, Nat.zero_add]

/-- A native-width load followed by a native-width store reproduces the
loaded bytes: the little-endian word round-trips. -/
theorem wordToBytes_bytesToWord (l : List Byte) :
    wordToBytes (bytesToWord l) l.length = l := by
  induction l with
  | nil => rfl
  | cons b bs ih =>
    have hb : b.val < 256 := b.isLt
    have h1 : (b.val + 256 * bytesToWord bs) % 256 = b.val := by omega
    have h2 : (b.val + 256 * bytesToWord bs) / 256 = bytesToWord bs := by omega
    simp only [bytesToWord, wordToBytes, List.length_cons, h2, ih]
    exact List.cons_eq_cons.mpr ⟨Fin.ext h1, rfl⟩

/-- Round trip at the granularity of a `readBytes` region. -/
theorem wordToBytes_bytesToWord_readBytes (buf : List Byte) (off n : Nat) :
    wordToBytes (bytesToWord (readBytes buf off n)) n = readBytes buf off n := by
  have h := wordToBytes_bytesToWord (readBytes buf off n)
  rwa [length_readBytes] at h

/-- Every branch of the width-specialised enqueue copy equals the generic
byte-for-byte copy. -/
theorem copyEntryIn_eq (wide : Bool) (es : Nat) (buf : List Byte) (off : Nat)
    (data : List Byte) :
    copyEntryIn wide es buf off data = writeBytes buf off (readBytes data 0 es) := by
  unfold copyEntryIn
  split
  · rw [wordToBytes_bytesToWord_readBytes]
  · rw [wordToBytes_bytesToWord_readBytes]
  · rw [wordToBytes_bytesToWord_readBytes]
  · split
    · rw [wordToBytes_bytesToWord_readBytes]
    · rfl
  · rfl

/-- Every branch of the width-specialised dequeue copy-out equals the
generic byte-for-byte read. -/
theorem copyEntryOut_eq (wide : Bool) (es : Nat) (buf : List Byte) (off : Nat) :
    copyEntryOut wide es buf off = readBytes buf off es := by
  unfold copyEntryOut
  split
  · rw [wordToBytes_bytesToWord_readBytes]
  · rw [wordToBytes_bytesToWord_readBytes]
  · rw [wordToBytes_bytesToWord_readBytes]
  · split
    · rw [wordToBytes_bytesToWord_readBytes]
    · rfl
  · rfl

theorem length_copyEntryIn (wide : Bool) (es : Nat) (buf : List Byte)
    (off : Nat) (data : List Byte) :
    (copyEntryIn wide es buf off data).length = buf.length := by
  rw [copyEntryIn_eq, length_writeBytes]

theorem length_memsetZero (buf : List Byte) (n : Nat) :
    (memsetZero buf n).length = buf.length := by
  rw [memsetZero, length_writeBytes]

/-- Zeroing the whole region replaces it by an all-zero region. -/
theorem memsetZero_eq_replicate (buf : List Byte) (n : Nat)
    (h : buf.length = n) :
    memsetZero buf n = List.replicate n 0 := by
  apply byteList_ext _ _ (by rw [length_memsetZero, h, List.length_replicate])
  intro i hi
  rw [length_memsetZero, h] at hi
  rw [memsetZero, getD_writeBytes, if_pos (by simp [List.length_replicate]; omega)]
  rw [List.getD_eq_getElem _ _ (by simp [List.length_replicate]; omega),
    List.getD_eq_getElem _ _ (by simp [List.length_replicate, hi]),
    List.getElem_replicate, List.getElem_replicate]

/-- The conditional-subtraction head of `__sbi_fifo_enqueue` computes the
mod-capacity head slot on well-formed states. -/
theorem headIndex_eq (f : Fifo) (h1 : f.tail < f.num_entries)
    (h2 : f.avail ≤ f.num_entries) :
    headIndex f = (f.tail + f.avail) % f.num_entries := by
  unfold headIndex
  by_cases h : f.num_entries ≤ f.tail + f.avail
  · rw [if_pos h, Nat.mod_eq_sub_mod h, Nat.mod_eq_of_lt (by omega)]
  · rw [if_neg h, Nat.mod_eq_of_lt (by omega)]

/-- The conditional subtraction of the in-place-update loop computes the
mod-capacity index for arguments below twice the capacity. -/
theorem wrapIndex_eq (num x : Nat) (h : x < 2 * num) :
    wrapIndex num x = x % num := by
  unfold wrapIndex
  by_cases hx : num ≤ x
  · rw [if_pos hx, Nat.mod_eq_sub_mod hx, Nat.mod_eq_of_lt (by omega)]
  · rw [if_neg hx, Nat.mod_eq_of_lt (by omega)]

/-- The in-place-update loop never changes the length of the backing
region. -/
theorem length_inplaceLoop {α : Type} (g : α → List Byte → Int × α × List Byte)
    (tailv num es : Nat) :
    ∀ (fu i : Nat) (buf : List Byte) (c : α) (ret : Int),
      (inplaceLoop g tailv num es i fu buf c ret).2.1.length = buf.length := by
  intro fu
  induction fu with
  | zero => intro i buf c ret; rfl
  | succ fu ih =>
    intro i buf c ret
    simp only [inplaceLoop]
    split
    · simp [length_writeBytes]
    · rw [ih, length_writeBytes]

/-- Every reachable state is well-formed. -/
theorem reachable_wf {wide : Bool} {f : Fifo} (h : Reachable wide f) :
    fifo_wf f := by
  induction h with
  | init mem n es hm he hs =>
    refine ⟨he, hs, Nat.le_refl 0 |>.trans (Nat.zero_le n), fun h0 => h0, fun _ => rfl, ?_⟩
    show (memsetZero mem (n * es)).length = n * es
    rw [length_memsetZero, hm]
  | enq f f' d r hf heq ih =>
    obtain ⟨w1, w2, w3, w4, w5, w6⟩ := ih
    simp only [sbi_fifo_enqueue] at heq
    by_cases hfull : is_full_unlocked f = true
    · rw [if_pos hfull] at heq
      have h2 : f = f' := by simpa using congrArg (fun p => p.2) heq
      exact h2 ▸ ⟨w1, w2, w3, w4, w5, w6⟩
    · rw [if_neg hfull] at heq
      have h2 : enqueue_unlocked wide f d = f' := by
        simpa using congrArg (fun p => p.2) heq
      subst h2
      have hav : f.avail ≠ f.num_entries := by
        simpa [is_full_unlocked] using hfull
      refine ⟨w1, w2, ?_, w4, w5, ?_⟩
      · show (f.avail + 1) % 65536 ≤ f.num_entries
        rw [Nat.mod_eq_of_lt (by omega)]
        omega
      · show (copyEntryIn wide f.entry_size f.queue (headIndex f * f.entry_size) d).length = _
        rw [length_copyEntryIn, w6]
        rfl
  | deq f f' r out hf heq ih =>
    obtain ⟨w1, w2, w3, w4, w5, w6⟩ := ih
    simp only [sbi_fifo_dequeue, Bool.not_true, Bool.false_eq_true, if_false] at heq
    by_cases hemp : is_empty_unlocked f = true
    · rw [if_pos hemp] at heq
      have h2 : f = f' := by simpa using congrArg (fun p => p.2.1) heq
      exact h2 ▸ ⟨w1, w2, w3, w4, w5, w6⟩
    · rw [if_neg hemp] at heq
      have h2 := congrArg (fun p => p.2.1) heq
      simp only [Option.some.injEq] at h2
      have hav : f.avail ≠ 0 := by
        simpa [is_empty_unlocked] using hemp
      have hnum : 0 < f.num_entries := by omega
      have htail : f.tail < f.num_entries := w4 hnum
      have hmod : (f.tail + 1) % 65536 = f.tail + 1 := Nat.mod_eq_of_lt (by omega)
      rw [← h2]
      refine ⟨w1, w2, ?_, ?_, ?_, ?_⟩
      · show f.avail - 1 ≤ f.num_entries
        omega
      · intro _
        show (if f.num_entries ≤ (f.tail + 1) % 65536 then 0 else (f.tail + 1) % 65536) < f.num_entries
        rw [hmod]
        by_cases hc : f.num_entries ≤ f.tail + 1
        · rw [if_pos hc]; omega
        · rw [if_neg hc]; omega
      · exact fun h0 => absurd h0 (Nat.pos_iff_ne_zero.mp hnum)
      · show f.queue.length = f.num_entries * f.entry_size
        exact w6
  | rst f f' b hf heq ih =>
    obtain ⟨w1, w2, w3, w4, w5, w6⟩ := ih
    simp only [sbi_fifo_reset] at heq
    have h2 : reset_unlocked f = f' := by simpa using congrArg (fun p => p.2) heq
    subst h2
    refine ⟨w1, w2, Nat.zero_le _, fun _ => ?_, fun _ => rfl, ?_⟩
    · assumption
    · show (memsetZero f.queue (f.num_entries * f.entry_size)).length = _
      rw [length_memsetZero, w6]
      rfl
  | upd f f' g c r c' hf heq ih =>
    obtain ⟨w1, w2, w3, w4, w5, w6⟩ := ih
    simp only [sbi_fifo_inplace_update] at heq
    by_cases hemp : is_empty_unlocked f = true
    · rw [if_pos hemp] at heq
      have h2 : f = f' := by simpa using congrArg (fun p => p.2.1) heq
      exact h2 ▸ ⟨w1, w2, w3, w4, w5, w6⟩
    · rw [if_neg hemp] at heq
      have h2 := congrArg (fun p => p.2.1) heq
      simp only [Option.some.injEq] at h2
      rw [← h2]
      refine ⟨w1, w2, w3, w4, w5, ?_⟩
      show (inplaceLoop g f.tail f.num_entries f.entry_size 0 f.avail f.queue c
        SBI_FIFO_UNCHANGED).2.1.length = _
      rw [length_inplaceLoop, w6]

/-- C1 (amended): every reachable state satisfies `0 ≤ count ≤ capacity`
and the tail bound `0 ≤ tail_index < capacity` whenever `capacity > 0`
(for the degenerate capacity-0 states the tail is pinned to `0`), the
backing region has exactly `capacity * entry_width` bytes, and whenever an
enqueue can proceed it writes the entry at slot
`(tail_index + count) mod capacity` and increments the count; closure of
`Reachable` under all five operations makes this hold before and after
each of them. -/
theorem spec_c1_invariant (wide : Bool) (f : Fifo) (h : Reachable wide f) :
    f.avail ≤ f.num_entries ∧
    (0 < f.num_entries → f.tail < f.num_entries) ∧
    (f.num_entries = 0 → f.tail = 0) ∧
    f.queue.length = f.num_entries * f.entry_size ∧
    (f.avail < f.num_entries → ∀ d : List Byte,
      enqueue_unlocked wide f d =
        { f with
          queue := copyEntryIn wide f.entry_size f.queue
            (((f.tail + f.avail) % f.num_entries) * f.entry_size) d
          avail := f.avail + 1 }) := by
  obtain ⟨w1, w2, w3, w4, w5, w6⟩ := reachable_wf h
  refine ⟨w3, w4, w5, w6, ?_⟩
  intro hlt d
  unfold enqueue_unlocked
  rw [headIndex_eq f (w4 (by omega)) w3,
    Nat.mod_eq_of_lt (show f.avail + 1 < 65536 by omega)]

/-- C1 counterexample: the claim as stated demands `tail_index < capacity`
in every reachable state, but initialisation with capacity `0` (which the
`u16` interface admits) reaches a state with `tail_index = capacity = 0`. -/
theorem spec_c1_cex :
    Reachable true (sbi_fifo_init [] 0 1) ∧
    ¬ (sbi_fifo_init [] 0 1).tail < (sbi_fifo_init [] 0 1).num_entries :=
  ⟨Reachable.init [] 0 1 rfl (by omega) (by omega), by decide⟩

/-- Witness for C1 at a concrete freshly initialised capacity-2 fifo. -/
theorem spec_c1_witness :
    (sbi_fifo_init (List.replicate 4 0) 2 2).avail ≤
      (sbi_fifo_init (List.replicate 4 0) 2 2).num_entries :=
  (spec_c1_invariant true _
    (Reachable.init (List.replicate 4 0) 2 2 (by decide) (by omega) (by omega))).1

/-- C3: with valid pointers, enqueue on a full queue fails with the
capacity-exhausted code and returns the state unchanged, and dequeue on an
empty queue fails with the empty-queue code and returns the state
unchanged, writing nothing to the output. -/
theorem spec_c3_boundary (wide : Bool) (f : Fifo) (d : List Byte) :
    (f.avail = f.num_entries →
      sbi_fifo_enqueue wide (some f) (some d) = (SBI_ENOSPC, some f)) ∧
    (f.avail = 0 →
      sbi_fifo_dequeue wide (some f) true = (SBI_ENOENT, some f, none)) := by
  constructor
  · intro h
    simp [sbi_fifo_enqueue, is_full_unlocked, h]
  · intro h
    simp [sbi_fifo_dequeue, is_empty_unlocked, h]

/-- Witness for C3 at the capacity-0 fifo, which is both full and empty. -/
theorem spec_c3_witness :
    ((sbi_fifo_init [] 0 4).avail = (sbi_fifo_init [] 0 4).num_entries ∧
      sbi_fifo_enqueue true (some (sbi_fifo_init [] 0 4)) (some (w4 1)) =
        (SBI_ENOSPC, some (sbi_fifo_init [] 0 4))) ∧
    ((sbi_fifo_init [] 0 4).avail = 0 ∧
      sbi_fifo_dequeue true (some (sbi_fifo_init [] 0 4)) true =
        (SBI_ENOENT, some (sbi_fifo_init [] 0 4), none)) :=
  ⟨⟨rfl, (spec_c3_boundary true _ (w4 1)).1 rfl⟩,
   ⟨rfl, (spec_c3_boundary true _ (w4 1)).2 rfl⟩⟩

/-- C4: reset on a valid handle of a reachable state zeroes the whole
backing region, clears `count` and `tail_index`, and reports success;
reset on a null handle reports failure and touches nothing. -/
theorem spec_c4_reset (wide : Bool) (f : Fifo) (h : Reachable wide f) :
    sbi_fifo_reset (some f) =
      (true, some { f with
        avail := 0
        tail := 0
        queue := List.replicate (f.num_entries * f.entry_size) 0 }) ∧
    sbi_fifo_reset none = (false, none) := by
  obtain ⟨-, -, -, -, -, w6⟩ := reachable_wf h
  constructor
  · show (true, some (reset_unlocked f)) = _
    rw [reset_unlocked, memsetZero_eq_replicate _ _ w6]
  · rfl

/-- Witness for C4 at a concrete reachable fifo. -/
theorem spec_c4_witness :
    sbi_fifo_reset (some (sbi_fifo_init (List.replicate 4 0) 2 2)) =
      (true, some { sbi_fifo_init (List.replicate 4 0) 2 2 with
        avail := 0
        tail := 0
        queue := List.replicate (2 * 2) 0 }) := by
  exact (spec_c4_reset true _
    (Reachable.init (List.replicate 4 0) 2 2 (by decide) (by omega) (by omega))).1

/-- C6: a null handle makes `sbi_fifo_avail` return `0` with no error
code, while `sbi_fifo_is_full` and `sbi_fifo_is_empty` return the
invalid-argument code; enqueue and dequeue return the invalid-argument
code when the handle or the data/output pointer is null. -/
theorem spec_c6_null_asymmetry (wide : Bool) (f : Fifo)
    (d0 : Option (List Byte)) (b : Bool) :
    sbi_fifo_avail none = 0 ∧
    sbi_fifo_is_full none = SBI_EINVAL ∧
    sbi_fifo_is_empty none = SBI_EINVAL ∧
    sbi_fifo_enqueue wide none d0 = (SBI_EINVAL, none) ∧
    sbi_fifo_enqueue wide (some f) none = (SBI_EINVAL, some f) ∧
    sbi_fifo_dequeue wide none b = (SBI_EINVAL, none, none) ∧
    sbi_fifo_dequeue wide (some f) false = (SBI_EINVAL, some f, none) :=
  ⟨rfl, rfl, rfl, rfl, rfl, rfl, rfl⟩

/-- C7: for the native entry widths 1, 2 and 4 (and 8 on wide-word
targets) the native-width load/store used by enqueue and dequeue leaves
exactly the bytes a byte-for-byte copy would leave, for every entry value
and every slot offset. -/
theorem spec_c7_copy_equiv (wide : Bool) (es : Nat) (buf data : List Byte)
    (off : Nat)
    (h : es = 1 ∨ es = 2 ∨ es = 4 ∨ (wide = true ∧ es = 8)) :
    copyEntryIn wide es buf off data = writeBytes buf off (readBytes data 0 es) ∧
    copyEntryOut wide es buf off = readBytes buf off es :=
  ⟨copyEntryIn_eq wide es buf off data, copyEntryOut_eq wide es buf off⟩

/-- Witness for C7 at width 4 with a concrete entry and buffer. -/
theorem spec_c7_witness :
    ((4 : Nat) = 1 ∨ (4 : Nat) = 2 ∨ (4 : Nat) = 4 ∨ (true = true ∧ (4 : Nat) = 8)) ∧
    (copyEntryIn true 4 (List.replicate 8 0) 4 (w4 305419896) =
      writeBytes (List.replicate 8 0) 4 (readBytes (w4 305419896) 0 4) ∧
    copyEntryOut true 4 (List.replicate 8 0) 4 =
      readBytes (List.replicate 8 0) 4 4) :=
  ⟨by omega, spec_c7_copy_equiv true 4 _ _ 4 (by omega)⟩

/-- C8: a null fifo handle or a null context pointer makes the in-place
update return the *unchanged* status — not an invalid-argument error —
with the fifo and context exactly as passed in, for every callback. -/
theorem spec_c8_inplace_null {α : Type} (f : Fifo) (c0 : Option α)
    (g : α → List Byte → Int × α × List Byte) :
    sbi_fifo_inplace_update none c0 g = (SBI_FIFO_UNCHANGED, none, c0) ∧
    sbi_fifo_inplace_update (some f) (none : Option α) g =
      (SBI_FIFO_UNCHANGED, some f, none) :=
  ⟨rfl, rfl⟩

/-- A successful dequeue: characterisation of the result on a well-formed
nonempty state. -/
theorem dequeue_step (wide : Bool) (f : Fifo)
    (hwf : fifo_wf f) (hav : 0 < f.avail) :
    sbi_fifo_dequeue wide (some f) true =
      (0, some { f with
            avail := f.avail - 1
            tail := (f.tail + 1) % f.num_entries },
       some (readBytes f.queue (f.tail * f.entry_size) f.entry_size)) := by
  obtain ⟨w1, w2, w3, w4, w5, w6⟩ := hwf
  have hnum : 0 < f.num_entries := by omega
  have htail := w4 hnum
  have hm1 : (f.tail + 1) % 65536 = f.tail + 1 := Nat.mod_eq_of_lt (by omega)
  have ht : (if f.num_entries ≤ (f.tail + 1) % 65536 then 0
      else (f.tail + 1) % 65536) = (f.tail + 1) % f.num_entries := by
    rw [hm1]
    by_cases hc : f.num_entries ≤ f.tail + 1
    · rw [if_pos hc, (by omega : f.tail + 1 = f.num_entries), Nat.mod_self]
    · rw [if_neg hc, Nat.mod_eq_of_lt (by omega)]
  simp only [sbi_fifo_dequeue, Bool.not_true, Bool.false_eq_true, if_false]
  rw [if_neg (by simp [is_empty_unlocked]; omega), ht, copyEntryOut_eq]

/-- C10: a successful dequeue leaves every byte of the backing region in
place, decrements the count, advances the tail by one slot mod capacity,
and hands the caller exactly the `entry_width` bytes of the old tail
slot. -/
theorem spec_c10_dequeue_frame (wide : Bool) (f : Fifo)
    (hwf : fifo_wf f) (hav : 0 < f.avail) :
    sbi_fifo_dequeue wide (some f) true =
      (0, some { f with
            avail := f.avail - 1
            tail := (f.tail + 1) % f.num_entries },
       some (readBytes f.queue (f.tail * f.entry_size) f.entry_size)) :=
  dequeue_step wide f hwf hav

/-- Witness for C10 at a concrete two-slot fifo holding one entry. -/
theorem spec_c10_witness :
    fifo_wf (Fifo.mk [7, 9] 2 1 1 0) ∧ 0 < (Fifo.mk [7, 9] 2 1 1 0).avail ∧
    sbi_fifo_dequeue true (some (Fifo.mk [7, 9] 2 1 1 0)) true =
      (0, some (Fifo.mk [7, 9] 2 1 0 1), some [7]) := by
  refine ⟨by decide, by decide, ?_⟩
  exact spec_c10_dequeue_frame true (Fifo.mk [7, 9] 2 1 1 0) (by decide) (by decide)

/-- The counted loop of `sbi_fifo_inplace_update` equals the reference
scan over the explicit list of the slot indices it addresses. -/
theorem inplaceLoop_eq_scanSlots {α : Type}
    (g : α → List Byte → Int × α × List Byte) (tailv num es : Nat) :
    ∀ (fu i : Nat) (buf : List Byte) (c : α) (ret : Int),
      inplaceLoop g tailv num es i fu buf c ret =
        scanSlots g es
          ((List.range fu).map (fun j => wrapIndex num (tailv + i + j)))
          buf c ret := by
  intro fu
  induction fu with
  | zero => intro i buf c ret; rfl
  | succ fu ih =>
    intro i buf c ret
    rw [List.range_succ_eq_map, List.map_cons, List.map_map]
    have hl : (List.range fu).map
          ((fun j => wrapIndex num (tailv + i + j)) ∘ Nat.succ)
        = (List.range fu).map (fun j => wrapIndex num (tailv + (i + 1) + j)) := by
      apply List.map_congr_left
      intro a _
      show wrapIndex num (tailv + i + (a + 1)) = wrapIndex num (tailv + (i + 1) + a)
      rw [(by omega : tailv + i + (a + 1) = tailv + (i + 1) + a)]
    rw [hl]
    simp only [inplaceLoop, scanSlots, Nat.add_zero]
    split
    · rfl
    · exact ih (i + 1) _ _ _

/-- On a nonempty queue, `sbi_fifo_inplace_update` is the reference scan
over `slotOrder`. -/
theorem inplace_update_eq_scanSlots {α : Type} (f : Fifo) (c : α)
    (g : α → List Byte → Int × α × List Byte) (ha : f.avail ≠ 0) :
    sbi_fifo_inplace_update (some f) (some c) g =
      ((scanSlots g f.entry_size (slotOrder f) f.queue c SBI_FIFO_UNCHANGED).1,
       some { f with queue :=
         (scanSlots g f.entry_size (slotOrder f) f.queue c SBI_FIFO_UNCHANGED).2.1 },
       some (scanSlots g f.entry_size (slotOrder f) f.queue c
         SBI_FIFO_UNCHANGED).2.2) := by
  have hl : (List.range f.avail).map
        (fun j => wrapIndex f.num_entries (f.tail + 0 + j)) = slotOrder f := by
    unfold slotOrder
    apply List.map_congr_left
    intro a _
    rw [(by omega : f.tail + 0 + a = f.tail + a)]
  simp only [sbi_fifo_inplace_update]
  rw [if_neg (by simp [is_empty_unlocked, ha]), inplaceLoop_eq_scanSlots, hl]

/-- Once the reference scan has stopped with *skip* or *updated*, slots
appended after the stopping point are never visited. -/
theorem scanSlots_stop {α : Type} (g : α → List Byte → Int × α × List Byte)
    (es : Nat) :
    ∀ (l1 l2 : List Nat) (buf : List Byte) (c : α) (ret : Int),
      ret ≠ SBI_FIFO_SKIP → ret ≠ SBI_FIFO_UPDATED →
      ((scanSlots g es l1 buf c ret).1 = SBI_FIFO_SKIP ∨
       (scanSlots g es l1 buf c ret).1 = SBI_FIFO_UPDATED) →
      scanSlots g es (l1 ++ l2) buf c ret = scanSlots g es l1 buf c ret := by
  intro l1
  induction l1 with
  | nil =>
    intro l2 buf c ret h1 h2 h3
    rcases h3 with h3 | h3
    · exact absurd h3 h1
    · exact absurd h3 h2
  | cons idx rest ih =>
    intro l2 buf c ret h1 h2 h3
    simp only [List.cons_append, scanSlots] at h3 ⊢
    by_cases hc : (g c (readBytes buf (idx * es) es)).1 = SBI_FIFO_SKIP ∨
        (g c (readBytes buf (idx * es) es)).1 = SBI_FIFO_UPDATED
    · rw [if_pos hc, if_pos hc]
    · rw [if_neg hc] at h3
      rw [if_neg hc, if_neg hc]
      exact ih l2 _ _ _ (fun h => hc (Or.inl h)) (fun h => hc (Or.inr h)) h3

/-- If the callback only ever answers with one of the three statuses, the
reference scan, started with the *unchanged* status, ends with one of the
three statuses (so an exhausted scan ends *unchanged*). -/
theorem scanSlots_status {α : Type} (g : α → List Byte → Int × α × List Byte)
    (es : Nat)
    (hg : ∀ (c : α) (e : List Byte), (g c e).1 = SBI_FIFO_UNCHANGED ∨
      (g c e).1 = SBI_FIFO_SKIP ∨ (g c e).1 = SBI_FIFO_UPDATED) :
    ∀ (l : List Nat) (buf : List Byte) (c : α) (ret : Int),
      ret = SBI_FIFO_UNCHANGED →
      ((scanSlots g es l buf c ret).1 = SBI_FIFO_UNCHANGED ∨
       (scanSlots g es l buf c ret).1 = SBI_FIFO_SKIP ∨
       (scanSlots g es l buf c ret).1 = SBI_FIFO_UPDATED) := by
  intro l
  induction l with
  | nil =>
    intro buf c ret hret
    exact Or.inl hret
  | cons idx rest ih =>
    intro buf c ret hret
    simp only [scanSlots]
    by_cases hc : (g c (readBytes buf (idx * es) es)).1 = SBI_FIFO_SKIP ∨
        (g c (readBytes buf (idx * es) es)).1 = SBI_FIFO_UPDATED
    · rw [if_pos hc]
      exact Or.inr hc
    · rw [if_neg hc]
      refine ih _ _ _ ?_
      rcases hg c (readBytes buf (idx * es) es) with h | h | h
      · exact h
      · exact absurd (Or.inl h) hc
      · exact absurd (Or.inr h) hc

/-- When the callback never answers *skip* or *updated*, the reference
scan never stops early. -/
theorem scanSlots_eq_scanAllSlots {α : Type}
    (g : α → List Byte → Int × α × List Byte) (es : Nat)
    (hg : ∀ (c : α) (e : List Byte), (g c e).1 ≠ SBI_FIFO_SKIP ∧
      (g c e).1 ≠ SBI_FIFO_UPDATED) :
    ∀ (l : List Nat) (buf : List Byte) (c : α) (ret : Int),
      scanSlots g es l buf c ret = scanAllSlots g es l buf c ret := by
  intro l
  induction l with
  | nil => intro buf c ret; rfl
  | cons idx rest ih =>
    intro buf c ret
    simp only [scanSlots, scanAllSlots]
    rw [if_neg (fun h => h.elim (hg c _).1 (hg c _).2)]
    exact ih _ _ _

/-- The full scan over one more slot: the final status is exactly what
the callback answers on the last visited slot. -/
theorem scanAllSlots_snoc {α : Type} (g : α → List Byte → Int × α × List Byte)
    (es : Nat) :
    ∀ (l : List Nat) (idx : Nat) (buf : List Byte) (c : α) (ret : Int),
      scanAllSlots g es (l ++ [idx]) buf c ret =
        stepSlot g es idx (scanAllSlots g es l buf c ret) := by
  intro l
  induction l with
  | nil => intro idx buf c ret; rfl
  | cons a rest ih =>
    intro idx buf c ret
    simp only [List.cons_append, scanAllSlots]
    exact ih _ _ _ _

/-- C5: on an empty queue the in-place update returns *unchanged* without
invoking the callback (the state and context pass through untouched for
every callback); on a nonempty queue it equals the reference scan over the
`avail` slot indices starting at the tail in FIFO order; the reference
scan never visits a slot after one on which the callback answered *skip*
or *updated*; and when the callback only answers with the three statuses,
the result is one of the three statuses, so an exhausted scan reports
*unchanged*. -/
theorem spec_c5_inplace_scan {α : Type} (f : Fifo) (c : α)
    (g : α → List Byte → Int × α × List Byte) :
    (f.avail = 0 → sbi_fifo_inplace_update (some f) (some c) g =
      (SBI_FIFO_UNCHANGED, some f, some c)) ∧
    (slotOrder f).length = f.avail ∧
    (f.avail ≠ 0 → sbi_fifo_inplace_update (some f) (some c) g =
      ((scanSlots g f.entry_size (slotOrder f) f.queue c SBI_FIFO_UNCHANGED).1,
       some { f with queue :=
         (scanSlots g f.entry_size (slotOrder f) f.queue c SBI_FIFO_UNCHANGED).2.1 },
       some (scanSlots g f.entry_size (slotOrder f) f.queue c
         SBI_FIFO_UNCHANGED).2.2)) ∧
    (∀ (l1 l2 : List Nat) (buf : List Byte) (c1 : α),
      ((scanSlots g f.entry_size l1 buf c1 SBI_FIFO_UNCHANGED).1 = SBI_FIFO_SKIP ∨
       (scanSlots g f.entry_size l1 buf c1 SBI_FIFO_UNCHANGED).1 = SBI_FIFO_UPDATED) →
      scanSlots g f.entry_size (l1 ++ l2) buf c1 SBI_FIFO_UNCHANGED =
        scanSlots g f.entry_size l1 buf c1 SBI_FIFO_UNCHANGED) ∧
    ((∀ (c1 : α) (e : List Byte), (g c1 e).1 = SBI_FIFO_UNCHANGED ∨
        (g c1 e).1 = SBI_FIFO_SKIP ∨ (g c1 e).1 = SBI_FIFO_UPDATED) →
      ((sbi_fifo_inplace_update (some f) (some c) g).1 = SBI_FIFO_UNCHANGED ∨
       (sbi_fifo_inplace_update (some f) (some c) g).1 = SBI_FIFO_SKIP ∨
       (sbi_fifo_inplace_update (some f) (some c) g).1 = SBI_FIFO_UPDATED)) := by
  refine ⟨?_, ?_, ?_, ?_, ?_⟩
  · intro h
    simp [sbi_fifo_inplace_update, is_empty_unlocked, h]
  · simp [slotOrder]
  · intro ha
    exact inplace_update_eq_scanSlots f c g ha
  · intro l1 l2 buf c1 h
    exact scanSlots_stop g f.entry_size l1 l2 buf c1 SBI_FIFO_UNCHANGED
      (by decide) (by decide) h
  · intro hg
    by_cases ha : f.avail = 0
    · left
      have h0 : sbi_fifo_inplace_update (some f) (some c) g =
          (SBI_FIFO_UNCHANGED, some f, some c) := by
        simp [sbi_fifo_inplace_update, is_empty_unlocked, ha]
      rw [h0]
    · rw [inplace_update_eq_scanSlots f c g ha]
      exact scanSlots_status g f.entry_size hg (slotOrder f) f.queue c
        SBI_FIFO_UNCHANGED rfl

/-- Witness for C5: the empty case at a fresh two-slot fifo and the
status-range case at a one-entry fifo with a counting callback that
always answers *unchanged*. -/
theorem spec_c5_witness :
    ((sbi_fifo_init (List.replicate 2 0) 2 1).avail = 0 ∧
      sbi_fifo_inplace_update (some (sbi_fifo_init (List.replicate 2 0) 2 1))
        (some (0 : Nat)) (fun c2 e2 => (SBI_FIFO_UNCHANGED, c2 + 1, e2)) =
        (SBI_FIFO_UNCHANGED, some (sbi_fifo_init (List.replicate 2 0) 2 1),
         some (0 : Nat))) ∧
    ((sbi_fifo_inplace_update (some (Fifo.mk [5, 6] 2 1 2 0)) (some (0 : Nat))
        (fun c2 e2 => (SBI_FIFO_UNCHANGED, c2 + 1, e2))).1 = SBI_FIFO_UNCHANGED ∨
     (sbi_fifo_inplace_update (some (Fifo.mk [5, 6] 2 1 2 0)) (some (0 : Nat))
        (fun c2 e2 => (SBI_FIFO_UNCHANGED, c2 + 1, e2))).1 = SBI_FIFO_SKIP ∨
     (sbi_fifo_inplace_update (some (Fifo.mk [5, 6] 2 1 2 0)) (some (0 : Nat))
        (fun c2 e2 => (SBI_FIFO_UNCHANGED, c2 + 1, e2))).1 = SBI_FIFO_UPDATED) :=
  ⟨⟨rfl, (spec_c5_inplace_scan (sbi_fifo_init (List.replicate 2 0) 2 1) 0
      (fun c2 e2 => (SBI_FIFO_UNCHANGED, c2 + 1, e2))).1 rfl⟩,
   (spec_c5_inplace_scan (Fifo.mk [5, 6] 2 1 2 0) 0
      (fun c2 e2 => (SBI_FIFO_UNCHANGED, c2 + 1, e2))).2.2.2.2
     (fun c1 e => Or.inl rfl)⟩

/-- C9: when the callback answers with any value other than *skip* and
*updated*, the scan continues through every occupied slot (the update
equals the never-stopping full scan), the status after scanning one more
slot is exactly the callback answer on that last slot, and the returned
status can differ from *unchanged* (concretely, a callback answering `42`
on a one-entry queue makes the update return `42`). -/
theorem spec_c9_inplace_last_status {α : Type} (f : Fifo) (c : α)
    (g : α → List Byte → Int × α × List Byte)
    (hg : ∀ (c1 : α) (e : List Byte), (g c1 e).1 ≠ SBI_FIFO_SKIP ∧
      (g c1 e).1 ≠ SBI_FIFO_UPDATED) :
    (f.avail ≠ 0 → sbi_fifo_inplace_update (some f) (some c) g =
      ((scanAllSlots g f.entry_size (slotOrder f) f.queue c SBI_FIFO_UNCHANGED).1,
       some { f with queue :=
         (scanAllSlots g f.entry_size (slotOrder f) f.queue c SBI_FIFO_UNCHANGED).2.1 },
       some (scanAllSlots g f.entry_size (slotOrder f) f.queue c
         SBI_FIFO_UNCHANGED).2.2)) ∧
    (∀ (l : List Nat) (idx : Nat) (buf : List Byte) (c1 : α) (ret : Int),
      scanAllSlots g f.entry_size (l ++ [idx]) buf c1 ret =
        stepSlot g f.entry_size idx (scanAllSlots g f.entry_size l buf c1 ret)) ∧
    ((sbi_fifo_inplace_update (some (Fifo.mk [0] 1 1 1 0)) (some (0 : Nat))
        (fun (c2 : Nat) e2 => ((42 : Int), c2 + 1, e2))).1 = 42 ∧
      (42 : Int) ≠ SBI_FIFO_UNCHANGED) := by
  refine ⟨?_, ?_, ?_, ?_⟩
  · intro ha
    rw [inplace_update_eq_scanSlots f c g ha,
      scanSlots_eq_scanAllSlots g f.entry_size hg]
  · intro l idx buf c1 ret
    exact scanAllSlots_snoc g f.entry_size l idx buf c1 ret
  · rfl
  · decide

/-- Witness for C9 with a constant callback answering `5` on a one-entry
fifo. -/
theorem spec_c9_witness :
    (∀ (c1 : Nat) (e : List Byte),
      ((fun (c2 : Nat) (e2 : List Byte) => ((5 : Int), c2, e2)) c1 e).1 ≠
          SBI_FIFO_SKIP ∧
      ((fun (c2 : Nat) (e2 : List Byte) => ((5 : Int), c2, e2)) c1 e).1 ≠
          SBI_FIFO_UPDATED) ∧
    sbi_fifo_inplace_update (some (Fifo.mk [3] 1 1 1 0)) (some (0 : Nat))
        (fun (c2 : Nat) (e2 : List Byte) => ((5 : Int), c2, e2)) =
      ((scanAllSlots (fun (c2 : Nat) (e2 : List Byte) => ((5 : Int), c2, e2)) 1
          (slotOrder (Fifo.mk [3] 1 1 1 0)) [3] 0 SBI_FIFO_UNCHANGED).1,
       some { Fifo.mk [3] 1 1 1 0 with queue :=
         (scanAllSlots (fun (c2 : Nat) (e2 : List Byte) => ((5 : Int), c2, e2)) 1
           (slotOrder (Fifo.mk [3] 1 1 1 0)) [3] 0 SBI_FIFO_UNCHANGED).2.1 },
       some (scanAllSlots (fun (c2 : Nat) (e2 : List Byte) => ((5 : Int), c2, e2)) 1
         (slotOrder (Fifo.mk [3] 1 1 1 0)) [3] 0 SBI_FIFO_UNCHANGED).2.2) :=
  ⟨fun c1 e => ⟨by norm_num [SBI_FIFO_SKIP], by norm_num [SBI_FIFO_UPDATED]⟩,
   (spec_c9_inplace_last_status (Fifo.mk [3] 1 1 1 0) 0
      (fun (c2 : Nat) (e2 : List Byte) => ((5 : Int), c2, e2))
      (fun c1 e => ⟨by norm_num [SBI_FIFO_SKIP], by norm_num [SBI_FIFO_UPDATED]⟩)).1
     (by decide)⟩

/-- Distinct slot indices occupy disjoint byte regions. -/
theorem slot_regions_disjoint (es a b : Nat) (hne : a ≠ b) :
    a * es + es ≤ b * es ∨ b * es + es ≤ a * es := by
  rcases Nat.lt_or_ge a b with h | h
  · left
    have h2 : (a + 1) * es ≤ b * es := Nat.mul_le_mul (by omega) (Nat.le_refl es)
    rw [Nat.succ_mul] at h2
    omega
  · right
    have h2 : (b + 1) * es ≤ a * es := Nat.mul_le_mul (by omega) (Nat.le_refl es)
    rw [Nat.succ_mul] at h2
    omega

/-- A non-full enqueue preserves well-formedness. -/
theorem enqueue_wf (wide : Bool) (f : Fifo) (d : List Byte)
    (hwf : fifo_wf f) (hlt : f.avail < f.num_entries) :
    fifo_wf (enqueue_unlocked wide f d) := by
  obtain ⟨w1, w2, w3, w4, w5, w6⟩ := hwf
  refine ⟨w1, w2, ?_, w4, w5, ?_⟩
  · show (f.avail + 1) % 65536 ≤ f.num_entries
    rw [Nat.mod_eq_of_lt (by omega)]
    omega
  · show (copyEntryIn wide f.entry_size f.queue (headIndex f * f.entry_size) d).length = _
    rw [length_copyEntryIn, w6]
    rfl

/-- The count increment of a non-full enqueue never wraps. -/
theorem enqueue_avail (wide : Bool) (f : Fifo) (d : List Byte)
    (hwf : fifo_wf f) (hlt : f.avail < f.num_entries) :
    (enqueue_unlocked wide f d).avail = f.avail + 1 := by
  obtain ⟨w1, -, -, -, -, -⟩ := hwf
  show (f.avail + 1) % 65536 = f.avail + 1
  exact Nat.mod_eq_of_lt (by omega)

/-- The dequeue state transition preserves well-formedness. -/
theorem dequeue_wf (f : Fifo) (hwf : fifo_wf f) (hav : 0 < f.avail) :
    fifo_wf { f with
      avail := f.avail - 1
      tail := (f.tail + 1) % f.num_entries } := by
  obtain ⟨w1, w2, w3, w4, w5, w6⟩ := hwf
  have hnum : 0 < f.num_entries := by omega
  refine ⟨w1, w2, ?_, ?_, ?_, ?_⟩
  · show f.avail - 1 ≤ f.num_entries
    omega
  · intro _
    show (f.tail + 1) % f.num_entries < f.num_entries
    exact Nat.mod_lt _ hnum
  · exact fun h0 => absurd h0 (Nat.pos_iff_ne_zero.mp hnum)
  · show f.queue.length = f.num_entries * f.entry_size
    exact w6

theorem length_fifoEntries (f : Fifo) : (fifoEntries f).length = f.avail := by
  simp [fifoEntries]

/-- A non-full enqueue appends the entry to the abstract queue contents. -/
theorem enqueue_unlocked_entries (wide : Bool) (f : Fifo) (d : List Byte)
    (hwf : fifo_wf f) (hlt : f.avail < f.num_entries)
    (hd : d.length = f.entry_size) :
    fifoEntries (enqueue_unlocked wide f d) = fifoEntries f ++ [d] := by
  obtain ⟨w1, w2, w3, w4, w5, w6⟩ := hwf
  have hnum : 0 < f.num_entries := by omega
  have htail := w4 hnum
  have hhead : headIndex f = (f.tail + f.avail) % f.num_entries :=
    headIndex_eq f htail w3
  have hb : (f.tail + f.avail) % f.num_entries < f.num_entries := Nat.mod_lt _ hnum
  have hrd : readBytes d 0 f.entry_size = d := by
    rw [← hd]
    exact readBytes_all d
  simp only [fifoEntries, slotRead, enqueue_unlocked]
  rw [Nat.mod_eq_of_lt (show f.avail + 1 < 65536 by omega)]
  rw [copyEntryIn_eq, hhead, hrd]
  rw [List.range_succ, List.map_append, List.map_cons, List.map_nil]
  congr 1
  · apply List.map_congr_left
    intro i hi
    rw [List.mem_range] at hi
    have hne : (f.tail + i) % f.num_entries ≠ (f.tail + f.avail) % f.num_entries := by
      intro hcon
      have h2 : i ≡ f.avail [MOD f.num_entries] :=
        Nat.ModEq.add_left_cancel' f.tail hcon
      have h3 : i % f.num_entries = f.avail % f.num_entries := h2
      rw [Nat.mod_eq_of_lt (by omega), Nat.mod_eq_of_lt (by omega)] at h3
      omega
    apply readBytes_writeBytes_disjoint
    rw [hd]
    exact slot_regions_disjoint f.entry_size _ _ hne
  · rw [← hd]
    rw [readBytes_writeBytes_self]
    rw [hd, w6]
    have h2 : ((f.tail + f.avail) % f.num_entries + 1) * f.entry_size ≤
        f.num_entries * f.entry_size := Nat.mul_le_mul (by omega) (Nat.le_refl _)
    rw [Nat.succ_mul] at h2
    omega

/-- On a nonempty well-formed state the abstract contents decompose as the
tail entry followed by the contents after the dequeue transition. -/
theorem fifoEntries_cons (f : Fifo) (hwf : fifo_wf f) (hav : 0 < f.avail) :
    fifoEntries f = slotRead f f.tail ::
      fifoEntries { f with
        avail := f.avail - 1
        tail := (f.tail + 1) % f.num_entries } := by
  obtain ⟨w1, w2, w3, w4, w5, w6⟩ := hwf
  have hnum : 0 < f.num_entries := by omega
  have htail := w4 hnum
  simp only [fifoEntries, slotRead]
  rw [(show f.avail = (f.avail - 1) + 1 by omega), List.range_succ_eq_map,
    List.map_cons, List.map_map]
  congr 1
  · rw [Nat.add_zero, Nat.mod_eq_of_lt htail]
  · apply List.map_congr_left
    intro a _
    show readBytes f.queue (((f.tail + (a + 1)) % f.num_entries) * f.entry_size)
        f.entry_size =
      readBytes f.queue ((((f.tail + 1) % f.num_entries + a) % f.num_entries) *
        f.entry_size) f.entry_size
    rw [Nat.mod_add_mod, (by omega : f.tail + (a + 1) = f.tail + 1 + a)]

/-- Enqueueing a list of fitting entries appends them to the abstract
contents and leaves geometry and tail untouched. -/
theorem enqueueList_spec (wide : Bool) :
    ∀ (ds : List (List Byte)) (f : Fifo), fifo_wf f →
      (∀ d ∈ ds, d.length = f.entry_size) →
      f.avail + ds.length ≤ f.num_entries →
      fifo_wf (enqueueList wide f ds) ∧
      (enqueueList wide f ds).num_entries = f.num_entries ∧
      (enqueueList wide f ds).entry_size = f.entry_size ∧
      (enqueueList wide f ds).avail = f.avail + ds.length ∧
      fifoEntries (enqueueList wide f ds) = fifoEntries f ++ ds := by
  intro ds
  induction ds with
  | nil =>
    intro f hwf _ _
    exact ⟨hwf, rfl, rfl, rfl, by simp [enqueueList]⟩
  | cons d ds ih =>
    intro f hwf hlen hcap
    have hlt : f.avail < f.num_entries := by
      have h2 := hcap
      rw [List.length_cons] at h2
      omega
    have hnotfull : is_full_unlocked f = false := by
      simp [is_full_unlocked]
      omega
    have hstep : enqueueList wide f (d :: ds) =
        enqueueList wide (enqueue_unlocked wide f d) ds := by
      simp only [enqueueList, List.foldl_cons, sbi_fifo_enqueue, hnotfull,
        Bool.false_eq_true, if_false, Option.getD_some]
    have hav1 := enqueue_avail wide f d hwf hlt
    obtain ⟨ih1, ih2, ih3, ih4, ih5⟩ := ih (enqueue_unlocked wide f d)
      (enqueue_wf wide f d hwf hlt)
      (fun d2 hd2 => hlen d2 (List.mem_cons_of_mem d hd2))
      (by rw [(show (enqueue_unlocked wide f d).num_entries = f.num_entries
          from rfl), hav1, List.length_cons] at *; omega)
    rw [hstep]
    refine ⟨ih1, ih2, ih3, ?_, ?_⟩
    · rw [ih4, hav1, List.length_cons]
      omega
    · rw [ih5, enqueue_unlocked_entries wide f d hwf hlt
        (hlen d (List.mem_cons_self d ds))]
      simp

/-- Dequeueing `n ≤ count` times returns the first `n` abstract
entries in order. -/
theorem dequeueN_spec (wide : Bool) :
    ∀ (n : Nat) (f : Fifo), fifo_wf f → n ≤ f.avail →
      (dequeueN wide f n).1 = (fifoEntries f).take n := by
  intro n
  induction n with
  | zero => intro f _ _; rfl
  | succ n ih =>
    intro f hwf hle
    have hav : 0 < f.avail := by omega
    have hstep := dequeue_step wide f hwf hav
    simp only [dequeueN, hstep, Option.getD_some]
    rw [ih _ (dequeue_wf f hwf hav) (by show n ≤ f.avail - 1; omega)]
    rw [fifoEntries_cons f hwf hav]
    rw [List.take_succ_cons]
    rfl

/-- C2 (amended): from any well-formed state with enough free slots, a
sequence of enqueues followed by enough dequeues returns first the
pre-existing entries and then the enqueued entries in exactly enqueue
order; in the concrete capacity-4, width-4 scenario the first three
enqueues leave count 3 (not full), the dequeue returns entry 1 leaving
count 2, two more enqueues make the queue full at count 4, Enqueue(6) is
rejected capacity-exhausted with count still 4, and the final dequeues
return 2, 3, 4, 5 in order, with the fifth dequeue failing empty-queue
(the spec text instead lists `2, 4, 5` and a failure on the fourth). -/
theorem spec_c2_fifo_order (wide : Bool) (f : Fifo) (ds : List (List Byte))
    (hwf : fifo_wf f) (hlen : ∀ d ∈ ds, d.length = f.entry_size)
    (hcap : f.avail + ds.length ≤ f.num_entries) :
    ((dequeueN wide (enqueueList wide f ds) (f.avail + ds.length)).1 =
      fifoEntries f ++ ds) ∧
    (sbi_fifo_avail scnE3 = 3 ∧ sbi_fifo_is_full scnE3 = 0 ∧
     scnD1.1 = 0 ∧ scnD1.2.2 = some (w4 1) ∧ sbi_fifo_avail scnD1.2.1 = 2 ∧
     sbi_fifo_avail scnE5 = 4 ∧ sbi_fifo_is_full scnE5 = 1 ∧
     scnE6.1 = SBI_ENOSPC ∧ sbi_fifo_avail scnE6.2 = 4 ∧
     scnQ1.1 = 0 ∧ scnQ1.2.2 = some (w4 2) ∧
     scnQ2.1 = 0 ∧ scnQ2.2.2 = some (w4 3) ∧
     scnQ3.1 = 0 ∧ scnQ3.2.2 = some (w4 4) ∧
     scnQ4.1 = 0 ∧ scnQ4.2.2 = some (w4 5) ∧
     scnQ5.1 = SBI_ENOENT ∧ scnQ5.2.2 = none) := by
  constructor
  · obtain ⟨h1, h2, h3, h4, h5⟩ := enqueueList_spec wide ds f hwf hlen hcap
    rw [dequeueN_spec wide _ _ h1 (Nat.le_of_eq h4.symm), h5,
      List.take_of_length_le (by simp [length_fifoEntries])]
  · exact ⟨rfl, rfl, rfl, rfl, rfl, rfl, rfl, rfl, rfl, rfl, rfl, rfl, rfl,
      rfl, rfl, rfl, rfl, rfl, rfl⟩

/-- C2 counterexample: in the concrete scenario of the spec the four
final dequeues return entries 2, 3, 4 and 5 and all succeed — the second
of them returns entry 3 where the claimed sequence `2, 4, 5` expects 4,
and the fourth succeeds with entry 5 where the claim expects the
empty-queue failure. -/
theorem spec_c2_cex :
    scnQ2.2.2 = some (w4 3) ∧ scnQ2.2.2 ≠ some (w4 4) ∧
    scnQ4.1 = 0 ∧ scnQ4.1 ≠ SBI_ENOENT ∧ scnQ4.2.2 = some (w4 5) :=
  ⟨rfl, by decide, rfl, by decide, rfl⟩

/-- Witness for C2 at a fresh two-slot fifo and two concrete entries. -/
theorem spec_c2_witness :
    (fifo_wf (sbi_fifo_init (List.replicate 8 0) 2 4) ∧
     (∀ d ∈ [w4 10, w4 11],
        d.length = (sbi_fifo_init (List.replicate 8 0) 2 4).entry_size) ∧
     (sbi_fifo_init (List.replicate 8 0) 2 4).avail + [w4 10, w4 11].length ≤
       (sbi_fifo_init (List.replicate 8 0) 2 4).num_entries) ∧
    (dequeueN true (enqueueList true (sbi_fifo_init (List.replicate 8 0) 2 4)
        [w4 10, w4 11])
      ((sbi_fifo_init (List.replicate 8 0) 2 4).avail +
        [w4 10, w4 11].length)).1 =
      fifoEntries (sbi_fifo_init (List.replicate 8 0) 2 4) ++ [w4 10, w4 11] :=
  ⟨⟨by decide, by decide, by decide⟩,
   (spec_c2_fifo_order true _ _ (by decide) (by decide) (by decide)).1⟩

end SbiFifo
